import Mathlib

/-!
Verification of the piecewise density evaluators of the tnp_tools shape library:
the asymmetric double-sided Crystal-Ball-like shape with blended power-law tails
(`RooModDSCB`) and the Gaussian-core shape with Bernstein-polynomial tails
(`RooGaussBern`).  All machine doubles are modelled as real numbers; `pow(b, e)`
on doubles is modelled as `Real.rpow` (written `b ^ e` with a real exponent),
which agrees with the C library function on every positive base, the only
regime the theorems below exercise.
-/

open Real

namespace RooModDSCB

/-- Parameter snapshot of the `RooModDSCB` shape: the values the proxies
`x0, sigmaL, sigmaR, alphaL, nL1, nL2, fL, alphaR, nR1, nR2, fR` read at
evaluation time.  Field order follows the constructor argument order. -/
structure Params where
  x0 : ℝ
  sigmaL : ℝ
  sigmaR : ℝ
  alphaL : ℝ
  nL1 : ℝ
  nL2 : ℝ
  fL : ℝ
  alphaR : ℝ
  nR1 : ℝ
  nR2 : ℝ
  fR : ℝ

/-- Body of the left power-law branch of `RooModDSCB::evaluate`
(src/lib/RooModDSCB.cc lines 57-71), as a function of the parameters it reads
and of the already-computed `left_sigma = (x-x0)/sigmaL`. -/
noncomputable def leftPowerLaw (alphaL nL1 nL2 fL left_sigma : ℝ) : ℝ :=
  let nL2_eff := if nL2 < nL1 then nL1 else nL2
  let abs_alpha := |alphaL|
  let BL1 := nL1 / abs_alpha - abs_alpha
  let BL2 := nL2_eff / abs_alpha - abs_alpha
  let AL1 := (nL1 / abs_alpha) ^ nL1 * Real.exp (-0.5 * abs_alpha * abs_alpha)
  let AL2 := (nL2_eff / abs_alpha) ^ nL2_eff * Real.exp (-0.5 * abs_alpha * abs_alpha)
  let power_law1 := AL1 * (BL1 - left_sigma) ^ (-1 * nL1)
  let power_law2 := AL2 * (BL2 - left_sigma) ^ (-1 * nL2_eff)
  fL * power_law1 + (1 - fL) * power_law2

/-- Body of the right power-law branch of `RooModDSCB::evaluate`
(src/lib/RooModDSCB.cc lines 84-98), as a function of the parameters it reads
and of the already-computed `right_sigma = (x-x0)/sigmaR`. -/
noncomputable def rightPowerLaw (alphaR nR1 nR2 fR right_sigma : ℝ) : ℝ :=
  let nR2_eff := if nR2 < nR1 then nR1 else nR2
  let abs_alpha := |alphaR|
  let BR1 := nR1 / abs_alpha - abs_alpha
  let BR2 := nR2_eff / abs_alpha - abs_alpha
  let AR1 := (nR1 / abs_alpha) ^ nR1 * Real.exp (-0.5 * abs_alpha * abs_alpha)
  let AR2 := (nR2_eff / abs_alpha) ^ nR2_eff * Real.exp (-0.5 * abs_alpha * abs_alpha)
  let power_law1 := AR1 * (BR1 + right_sigma) ^ (-1 * nR1)
  let power_law2 := AR2 * (BR2 + right_sigma) ^ (-1 * nR2_eff)
  fR * power_law1 + (1 - fR) * power_law2

/-- `RooModDSCB::evaluate` (src/lib/RooModDSCB.cc lines 50-102): the if/else
chain on `left_sigma = (x-x0)/sigmaL` and `right_sigma = (x-x0)/sigmaR`
selecting the left power law, one of the two Gaussian halves, or the right
power law. -/
noncomputable def evaluate (p : Params) (x : ℝ) : ℝ :=
  let left_sigma := (x - p.x0) / p.sigmaL
  let right_sigma := (x - p.x0) / p.sigmaR
  if left_sigma < -1 * p.alphaL then
    leftPowerLaw p.alphaL p.nL1 p.nL2 p.fL left_sigma
  else if left_sigma < 0 then
    Real.exp (-0.5 * left_sigma * left_sigma)
  else if right_sigma < p.alphaR then
    Real.exp (-0.5 * right_sigma * right_sigma)
  else
    rightPowerLaw p.alphaR p.nR1 p.nR2 p.fR right_sigma

/-- The four piecewise regions of the `RooModDSCB` shape. -/
inductive Region
  | leftTail
  | coreLeft
  | coreRight
  | rightTail
deriving DecidableEq

/-- The region-classification structure of `RooModDSCB::evaluate`: which of the
four branches of the if/else chain (lines 56, 73, 78, 83) fires for a given
input. -/
noncomputable def classify (p : Params) (x : ℝ) : Region :=
  let left_sigma := (x - p.x0) / p.sigmaL
  let right_sigma := (x - p.x0) / p.sigmaR
  if left_sigma < -1 * p.alphaL then Region.leftTail
  else if left_sigma < 0 then Region.coreLeft
  else if right_sigma < p.alphaR then Region.coreRight
  else Region.rightTail

end RooModDSCB

namespace RooGaussBern

/-- Parameter snapshot of the `RooGaussBern` shape: the values the proxies
`x0, sigma, alphaL, alphaR` and the two coefficient lists `bernCoefsL`,
`bernCoefsR` hold at evaluation time. -/
structure Params where
  x0 : ℝ
  sigma : ℝ
  alphaL : ℝ
  alphaR : ℝ
  bernCoefsL : List ℝ
  bernCoefsR : List ℝ

/-- Body of the left polynomial branch of `RooGaussBern::evaluate`
(src/lib/RooGaussBern.cc lines 55-70): rescale x with the observable's lower
domain edge and the left core boundary, then accumulate the Bernstein sum whose
coefficient at index `i < bern_order` is `coef0 * bernCoefsL[i]` and at the
final index `bern_order` is the bare `coef0`. -/
noncomputable def leftPolyVal (x0 sigma alphaL : ℝ) (bernCoefsL : List ℝ)
    (low_edge x : ℝ) : ℝ :=
  let boundary := x0 - alphaL * sigma
  let x_scaled := (x - low_edge) / (boundary - low_edge)
  let bern_order := bernCoefsL.length
  let coef0 := Real.exp (-0.5 * alphaL * alphaL)
  ∑ i ∈ Finset.range (bern_order + 1),
    (if i < bern_order then coef0 * bernCoefsL.getD i 0 else coef0)
      * x_scaled ^ (i : ℝ) * (1 - x_scaled) ^ ((bern_order - i : ℕ) : ℝ)

/-- Body of the Gaussian branch of `RooGaussBern::evaluate`
(src/lib/RooGaussBern.cc lines 73-75). -/
noncomputable def coreVal (x0 sigma x : ℝ) : ℝ :=
  let exp_arg := (x - x0) / sigma
  Real.exp (-0.5 * exp_arg * exp_arg)

/-- Body of the right polynomial branch of `RooGaussBern::evaluate`
(src/lib/RooGaussBern.cc lines 78-93): rescale x with the right core boundary
and the observable's upper domain edge, then accumulate the Bernstein sum whose
coefficient at index `i > 0` is `coef0 * bernCoefsR[i-1]` and at index `0` is
the bare `coef0`. -/
noncomputable def rightPolyVal (x0 sigma alphaR : ℝ) (bernCoefsR : List ℝ)
    (high_edge x : ℝ) : ℝ :=
  let boundary := x0 + alphaR * sigma
  let x_scaled := (x - boundary) / (high_edge - boundary)
  let bern_order := bernCoefsR.length
  let coef0 := Real.exp (-0.5 * alphaR * alphaR)
  ∑ i ∈ Finset.range (bern_order + 1),
    (if i > 0 then coef0 * bernCoefsR.getD (i - 1) 0 else coef0)
      * x_scaled ^ (i : ℝ) * (1 - x_scaled) ^ ((bern_order - i : ℕ) : ℝ)

/-- `RooGaussBern::evaluate` (src/lib/RooGaussBern.cc lines 46-97): the if/else
chain on `norm_dist = (x-x0)/sigma` selecting the left Bernstein tail, the
Gaussian core, or the right Bernstein tail.  `low_edge` and `high_edge` are the
observable's domain edges `x.min()` and `x.max()`. -/
noncomputable def evaluate (p : Params) (low_edge high_edge x : ℝ) : ℝ :=
  let norm_dist := (x - p.x0) / p.sigma
  if norm_dist < -1 * p.alphaL then
    leftPolyVal p.x0 p.sigma p.alphaL p.bernCoefsL low_edge x
  else if norm_dist < p.alphaR then
    coreVal p.x0 p.sigma x
  else
    rightPolyVal p.x0 p.sigma p.alphaR p.bernCoefsR high_edge x

/-- The three piecewise regions of the `RooGaussBern` shape. -/
inductive Region
  | leftTail
  | core
  | rightTail
deriving DecidableEq

/-- The region-classification structure of `RooGaussBern::evaluate`: which of
the three branches of the if/else chain (lines 54, 72, 77) fires for a given
input. -/
noncomputable def classify (p : Params) (x : ℝ) : Region :=
  let norm_dist := (x - p.x0) / p.sigma
  if norm_dist < -1 * p.alphaL then Region.leftTail
  else if norm_dist < p.alphaR then Region.core
  else Region.rightTail

end RooGaussBern

namespace SpecDSCB

/-- Spec §4.2 GaussianCore: `exp(−0.5 · z²)` for the locally-normalized
distance z. -/
noncomputable def gaussianCore (z : ℝ) : ℝ := Real.exp (-0.5 * z ^ 2)

/-- Spec §4.3 PowerLawTail, left side: `n2_eff = max(n1, n2)`,
`absAlpha = |alpha|`, `B = n/absAlpha − absAlpha`,
`A = (n/absAlpha)^n · exp(−0.5·absAlpha²)`, per-exponent value
`A · (B − z)^(−n)`, blended as `f·value(n1) + (1−f)·value(n2_eff)`. -/
noncomputable def powerLawTailLeft (alpha n1 n2 f z : ℝ) : ℝ :=
  let n2_eff := max n1 n2
  let absAlpha := |alpha|
  let B1 := n1 / absAlpha - absAlpha
  let A1 := (n1 / absAlpha) ^ n1 * Real.exp (-0.5 * absAlpha ^ 2)
  let B2 := n2_eff / absAlpha - absAlpha
  let A2 := (n2_eff / absAlpha) ^ n2_eff * Real.exp (-0.5 * absAlpha ^ 2)
  f * (A1 * (B1 - z) ^ (-n1)) + (1 - f) * (A2 * (B2 - z) ^ (-n2_eff))

/-- Spec §4.3 PowerLawTail, right side: same `A`, `B` construction with
per-exponent value `A · (B + z)^(−n)`. -/
noncomputable def powerLawTailRight (alpha n1 n2 f z : ℝ) : ℝ :=
  let n2_eff := max n1 n2
  let absAlpha := |alpha|
  let B1 := n1 / absAlpha - absAlpha
  let A1 := (n1 / absAlpha) ^ n1 * Real.exp (-0.5 * absAlpha ^ 2)
  let B2 := n2_eff / absAlpha - absAlpha
  let A2 := (n2_eff / absAlpha) ^ n2_eff * Real.exp (-0.5 * absAlpha ^ 2)
  f * (A1 * (B1 + z) ^ (-n1)) + (1 - f) * (A2 * (B2 + z) ^ (-n2_eff))

end SpecDSCB

/-- The source's two-sided exponent clamp `if n2 < n1 then n1 else n2` is
exactly `max n1 n2`. -/
lemma ite_clamp_eq_max (n1 n2 : ℝ) : (if n2 < n1 then n1 else n2) = max n1 n2 := by
  rcases lt_or_le n2 n1 with h | h
  · rw [if_pos h, max_eq_left h.le]
  · rw [if_neg (not_lt.mpr h), max_eq_right h]

/-- The code's left power-law branch agrees with the spec §4.3 left tail
formula. -/
lemma leftPowerLaw_eq_spec (alpha n1 n2 f z : ℝ) :
    RooModDSCB.leftPowerLaw alpha n1 n2 f z = SpecDSCB.powerLawTailLeft alpha n1 n2 f z := by
  simp only [RooModDSCB.leftPowerLaw, SpecDSCB.powerLawTailLeft, ite_clamp_eq_max]
  ring_nf

/-- The code's right power-law branch agrees with the spec §4.3 right tail
formula. -/
lemma rightPowerLaw_eq_spec (alpha n1 n2 f z : ℝ) :
    RooModDSCB.rightPowerLaw alpha n1 n2 f z = SpecDSCB.powerLawTailRight alpha n1 n2 f z := by
  simp only [RooModDSCB.rightPowerLaw, SpecDSCB.powerLawTailRight, ite_clamp_eq_max]
  ring_nf

/-- Claim C1: for the double power-law shape, `evaluate()` classifies and
dispatches exactly as: left power-law tail if `(x−x0)/sigmaL < −alphaL`; else
Gaussian core with width sigmaL if `(x−x0)/sigmaL < 0`; else Gaussian core with
width sigmaR if `(x−x0)/sigmaR < alphaR`; else right power-law tail — each
Gaussian branch returning `exp(−0.5·z²)` with z the locally-normalized distance
for that side. -/
theorem dscb_evaluate_dispatch (p : RooModDSCB.Params) (x : ℝ) :
    RooModDSCB.evaluate p x =
      if (x - p.x0) / p.sigmaL < -p.alphaL then
        SpecDSCB.powerLawTailLeft p.alphaL p.nL1 p.nL2 p.fL ((x - p.x0) / p.sigmaL)
      else if (x - p.x0) / p.sigmaL < 0 then
        SpecDSCB.gaussianCore ((x - p.x0) / p.sigmaL)
      else if (x - p.x0) / p.sigmaR < p.alphaR then
        SpecDSCB.gaussianCore ((x - p.x0) / p.sigmaR)
      else
        SpecDSCB.powerLawTailRight p.alphaR p.nR1 p.nR2 p.fR ((x - p.x0) / p.sigmaR) := by
  simp only [RooModDSCB.evaluate, neg_one_mul, SpecDSCB.gaussianCore,
    leftPowerLaw_eq_spec, rightPowerLaw_eq_spec]
  split_ifs <;> ring_nf

/-- For a positive base, `A · c^(−n)` with `A = c^n · e` collapses to `e`:
the algebraic heart of the power-law boundary identity. -/
lemma rpow_mul_rpow_neg_cancel (c n e : ℝ) (hc : 0 < c) :
    c ^ n * e * c ^ (-1 * n) = e := by
  rw [show (-1 * n : ℝ) = -n by ring, Real.rpow_neg hc.le]
  have hne : c ^ n ≠ 0 := ne_of_gt (Real.rpow_pos_of_pos hc n)
  field_simp

/-- The source's clamped second exponent is positive whenever `n1` is. -/
lemma clamp_pos (n1 n2 : ℝ) (hn1 : 0 < n1) : 0 < (if n2 < n1 then n1 else n2) := by
  rcases lt_or_le n2 n1 with h | h
  · rwa [if_pos h]
  · rw [if_neg (not_lt.mpr h)]; exact lt_of_lt_of_le hn1 h

/-- At `left_sigma = −alpha` the left power-law branch reproduces the Gaussian
boundary value `exp(−0.5·alpha²)`, for every `n2` and mixing fraction. -/
lemma leftPowerLaw_boundary (alpha n1 n2 f : ℝ) (ha : 0 < alpha) (hn1 : 0 < n1) :
    RooModDSCB.leftPowerLaw alpha n1 n2 f (-alpha) = Real.exp (-0.5 * alpha ^ 2) := by
  have habs : |alpha| = alpha := abs_of_pos ha
  have hn2 : 0 < (if n2 < n1 then n1 else n2) := clamp_pos n1 n2 hn1
  simp only [RooModDSCB.leftPowerLaw, habs]
  rw [show n1 / alpha - alpha - -alpha = n1 / alpha by ring,
    show (if n2 < n1 then n1 else n2) / alpha - alpha - -alpha
        = (if n2 < n1 then n1 else n2) / alpha by ring,
    rpow_mul_rpow_neg_cancel _ _ _ (div_pos hn1 ha),
    rpow_mul_rpow_neg_cancel _ _ _ (div_pos hn2 ha)]
  ring_nf

/-- At `right_sigma = alpha` the right power-law branch reproduces the Gaussian
boundary value `exp(−0.5·alpha²)`, for every `n2` and mixing fraction. -/
lemma rightPowerLaw_boundary (alpha n1 n2 f : ℝ) (ha : 0 < alpha) (hn1 : 0 < n1) :
    RooModDSCB.rightPowerLaw alpha n1 n2 f alpha = Real.exp (-0.5 * alpha ^ 2) := by
  have habs : |alpha| = alpha := abs_of_pos ha
  have hn2 : 0 < (if n2 < n1 then n1 else n2) := clamp_pos n1 n2 hn1
  simp only [RooModDSCB.rightPowerLaw, habs]
  rw [show n1 / alpha - alpha + alpha = n1 / alpha by ring,
    show (if n2 < n1 then n1 else n2) / alpha - alpha + alpha
        = (if n2 < n1 then n1 else n2) / alpha by ring,
    rpow_mul_rpow_neg_cancel _ _ _ (div_pos hn1 ha),
    rpow_mul_rpow_neg_cancel _ _ _ (div_pos hn2 ha)]
  ring_nf

/-- Claim C3: the blended tail expression evaluated exactly at the junction
(`z = −alpha` on the left, `z = +alpha` on the right) equals the Gaussian
core's boundary value `exp(−0.5·alpha²)`, for every `alpha > 0`, `n1 > 0`,
every `n2` and every mixing fraction f. -/
theorem dscb_tail_boundary_value (alpha n1 n2 f : ℝ) (ha : 0 < alpha) (hn1 : 0 < n1) :
    RooModDSCB.leftPowerLaw alpha n1 n2 f (-alpha) = Real.exp (-0.5 * alpha ^ 2) ∧
    RooModDSCB.rightPowerLaw alpha n1 n2 f alpha = Real.exp (-0.5 * alpha ^ 2) :=
  ⟨leftPowerLaw_boundary alpha n1 n2 f ha hn1,
   rightPowerLaw_boundary alpha n1 n2 f ha hn1⟩

/-- Witness for C3 at `alpha = 1`, `n1 = 2`, `n2 = 1`, `f = 0.3`. -/
theorem dscb_tail_boundary_value_witness :
    RooModDSCB.leftPowerLaw 1 2 1 0.3 (-1) = Real.exp (-0.5 * 1 ^ 2) ∧
    RooModDSCB.rightPowerLaw 1 2 1 0.3 1 = Real.exp (-0.5 * 1 ^ 2) :=
  dscb_tail_boundary_value 1 2 1 0.3 (by norm_num) (by norm_num)

/-- The parameter snapshot with both second exponents replaced by
`max(n1, n2)` of their side, every other field untouched. -/
noncomputable def clampSecondExponents (p : RooModDSCB.Params) : RooModDSCB.Params :=
  ⟨p.x0, p.sigmaL, p.sigmaR, p.alphaL, p.nL1, max p.nL1 p.nL2, p.fL,
   p.alphaR, p.nR1, max p.nR1 p.nR2, p.fR⟩

/-- Claim C4: the double power-law evaluator depends on each side's second
exponent only through `max(n1, n2)`: replacing `nL2` by `max(nL1, nL2)` and
`nR2` by `max(nR1, nR2)` leaves every evaluation unchanged (in particular,
evaluating with `n2 < n1` gives exactly the result of evaluating with that
side's `n2` replaced by `n1`). -/
theorem dscb_evaluate_clamp_invariant (p : RooModDSCB.Params) (x : ℝ) :
    RooModDSCB.evaluate p x = RooModDSCB.evaluate (clampSecondExponents p) x := by
  have hL : ∀ n1 n2 : ℝ, (if n2 < n1 then n1 else n2) = (if max n1 n2 < n1 then n1 else max n1 n2) := by
    intro n1 n2
    rw [ite_clamp_eq_max, if_neg (not_lt.mpr (le_max_left n1 n2))]
  simp only [RooModDSCB.evaluate, clampSecondExponents, RooModDSCB.leftPowerLaw,
    RooModDSCB.rightPowerLaw]
  rw [← hL p.nL1 p.nL2, ← hL p.nR1 p.nR2]

/-- Counterexample to C2: with `x0 = 0`, `sigmaL = sigmaR = 1`,
`alphaL = alphaR = 1`, the boundary input `x = −1` (so `z = −alphaL` exactly)
is classified into the left-core Gaussian region, not the left tail. -/
theorem dscb_left_boundary_in_core :
    RooModDSCB.classify ⟨0, 1, 1, 1, 2, 2, 1, 1, 2, 2, 1⟩ (-1) = RooModDSCB.Region.coreLeft ∧
    RooModDSCB.Region.coreLeft ≠ RooModDSCB.Region.leftTail := by
  refine ⟨?_, by decide⟩
  simp only [RooModDSCB.classify]
  norm_num

/-- Claim C2 (amended): a boundary input with `z` exactly equal to `alphaR` is
assigned to the right tail, but a boundary input with `z` exactly equal to
`−alphaL` is assigned by the strict `<` comparison to the core region (the
left-core Gaussian for the double power-law shape, the Gaussian core for the
Bernstein-tail shape), not to the left tail — for every value of the remaining
parameters with positive widths, `alphaL > 0` and `alphaR ≥ 0`. -/
theorem boundary_region_amended (p : RooModDSCB.Params) (q : RooGaussBern.Params)
    (hsL : 0 < p.sigmaL) (hsR : 0 < p.sigmaR) (haL : 0 < p.alphaL) (haR : 0 ≤ p.alphaR)
    (hqs : 0 < q.sigma) (hqaL : 0 < q.alphaL) (hqaR : 0 ≤ q.alphaR) :
    RooModDSCB.classify p (p.x0 + p.alphaR * p.sigmaR) = RooModDSCB.Region.rightTail ∧
    RooModDSCB.classify p (p.x0 - p.alphaL * p.sigmaL) = RooModDSCB.Region.coreLeft ∧
    RooGaussBern.classify q (q.x0 + q.alphaR * q.sigma) = RooGaussBern.Region.rightTail ∧
    RooGaussBern.classify q (q.x0 - q.alphaL * q.sigma) = RooGaussBern.Region.core := by
  refine ⟨?_, ?_, ?_, ?_⟩
  · simp only [RooModDSCB.classify,
      show p.x0 + p.alphaR * p.sigmaR - p.x0 = p.alphaR * p.sigmaR from by ring,
      mul_div_cancel_right₀ p.alphaR (ne_of_gt hsR)]
    have hls : 0 ≤ p.alphaR * p.sigmaR / p.sigmaL :=
      div_nonneg (mul_nonneg haR hsR.le) hsL.le
    rw [if_neg (by linarith), if_neg (by linarith), if_neg (lt_irrefl p.alphaR)]
  · simp only [RooModDSCB.classify,
      show p.x0 - p.alphaL * p.sigmaL - p.x0 = -p.alphaL * p.sigmaL from by ring,
      mul_div_cancel_right₀ (-p.alphaL) (ne_of_gt hsL)]
    rw [if_neg (by linarith), if_pos (by linarith)]
  · simp only [RooGaussBern.classify,
      show q.x0 + q.alphaR * q.sigma - q.x0 = q.alphaR * q.sigma from by ring,
      mul_div_cancel_right₀ q.alphaR (ne_of_gt hqs)]
    rw [if_neg (by linarith), if_neg (lt_irrefl q.alphaR)]
  · simp only [RooGaussBern.classify,
      show q.x0 - q.alphaL * q.sigma - q.x0 = -q.alphaL * q.sigma from by ring,
      mul_div_cancel_right₀ (-q.alphaL) (ne_of_gt hqs)]
    rw [if_neg (by linarith), if_pos (by linarith)]

/-- Numeric helper: `2 ^ (2:ℝ) = 4` for the real power. -/
lemma two_rpow_two : (2:ℝ) ^ (2:ℝ) = 4 := by
  rw [show (2:ℝ) = ((2:ℕ):ℝ) from by norm_num, Real.rpow_natCast]
  norm_num

/-- The spec's concrete scenario C parameter set:
`x0=0, sigmaL=sigmaR=1, alphaL=alphaR=1, nL1=nL2=nR1=nR2=2, fL=fR=1`. -/
noncomputable def dscbScenC : RooModDSCB.Params := ⟨0, 1, 1, 1, 2, 2, 1, 1, 2, 2, 1⟩

/-- On the left-tail region `x < −1`, scenario C evaluates to the closed form
`4·exp(−0.5)·(1−x)^(−2)`. -/
lemma dscbScenC_tail_eval (x : ℝ) (hx : x < -1) :
    RooModDSCB.evaluate dscbScenC x = 4 * Real.exp (-0.5) * (1 - x) ^ (-2 : ℝ) := by
  simp only [dscbScenC, RooModDSCB.evaluate, RooModDSCB.leftPowerLaw]
  rw [if_pos (show (x - 0) / 1 < -1 * 1 from by simpa using hx)]
  norm_num

/-- Claim C7: in scenario C the evaluator at `x = −5` returns a (finite)
strictly positive value strictly below the boundary value `exp(−0.5)`, and on
the left-tail region the value is strictly monotonically decreasing as x
decreases. -/
theorem dscb_deep_left_tail :
    0 < RooModDSCB.evaluate dscbScenC (-5) ∧
    RooModDSCB.evaluate dscbScenC (-5) < Real.exp (-0.5) ∧
    ∀ x y : ℝ, x < y → y < -1 →
      RooModDSCB.evaluate dscbScenC x < RooModDSCB.evaluate dscbScenC y := by
  have h6 : ((6:ℝ)) ^ (-2 : ℝ) = 1 / 36 := by
    rw [show (-2 : ℝ) = -((2:ℕ):ℝ) from by norm_num, Real.rpow_neg (by norm_num),
      Real.rpow_natCast]
    norm_num
  have h5 : RooModDSCB.evaluate dscbScenC (-5) = 4 * Real.exp (-0.5) * (1 / 36) := by
    rw [dscbScenC_tail_eval (-5) (by norm_num), show (1:ℝ) - (-5) = 6 from by norm_num, h6]
  refine ⟨?_, ?_, ?_⟩
  · rw [h5]; positivity
  · rw [h5]
    nlinarith [Real.exp_pos (-0.5 : ℝ)]
  · intro x y hxy hy
    rw [dscbScenC_tail_eval x (by linarith), dscbScenC_tail_eval y hy]
    have hmul : 0 < 4 * Real.exp (-0.5) := by positivity
    have hpow : (1 - x) ^ (-2 : ℝ) < (1 - y) ^ (-2 : ℝ) :=
      Real.rpow_lt_rpow_of_neg (by linarith) (by linarith) (by norm_num)
    exact mul_lt_mul_of_pos_left hpow hmul

/-- Witness for C7's monotonicity clause at the concrete pair `x = −6 < y = −5`. -/
theorem dscb_deep_left_tail_witness :
    RooModDSCB.evaluate dscbScenC (-6) < RooModDSCB.evaluate dscbScenC (-5) :=
  dscb_deep_left_tail.2.2 (-6) (-5) (by norm_num) (by norm_num)

/-- Mirror identity of the two power-law branch bodies: the left branch at z
is the right branch at −z. -/
lemma leftPowerLaw_eq_rightPowerLaw_neg (alpha n1 n2 f z : ℝ) :
    RooModDSCB.leftPowerLaw alpha n1 n2 f z = RooModDSCB.rightPowerLaw alpha n1 n2 f (-z) := by
  simp only [RooModDSCB.leftPowerLaw, RooModDSCB.rightPowerLaw, sub_eq_add_neg]

/-- Claim C10: mirror symmetry of the double power-law shape.  When the two
sides share their width, boundary (positive), exponents (first exponent
positive) and mixing fraction, the evaluator takes the same value at
`x0 + d` and `x0 − d` for every d — including at `|z| = alpha`, where the two
points fall in different regions (core versus tail) but the boundary identity
makes the values coincide. -/
theorem dscb_mirror_symmetry (p : RooModDSCB.Params) (d : ℝ)
    (hs : p.sigmaL = p.sigmaR) (hae : p.alphaL = p.alphaR) (ha : 0 < p.alphaL)
    (hnn : p.nL1 = p.nR1) (hn1 : 0 < p.nL1) (hn2 : p.nL2 = p.nR2) (hf : p.fL = p.fR) :
    RooModDSCB.evaluate p (p.x0 + d) = RooModDSCB.evaluate p (p.x0 - d) := by
  obtain ⟨x0, sL, sR, aL, nb1, nb2, fb, aR, nc1, nc2, fc⟩ := p
  dsimp only at hs hae ha hnn hn1 hn2 hf
  subst hs hae hnn hn2 hf
  simp only [RooModDSCB.evaluate]
  rw [show x0 + d - x0 = d from by ring, show x0 - d - x0 = -d from by ring,
    show -d / sL = -(d / sL) from by ring]
  set w := d / sL with hw
  rcases lt_trichotomy w (-aL) with hc | hc | hc
  · rw [if_pos (show w < -1 * aL from by linarith),
      if_neg (show ¬(-w < -1 * aL) from by simp only [not_lt]; linarith),
      if_neg (show ¬(-w < 0) from by simp only [not_lt]; linarith),
      if_neg (show ¬(-w < aL) from by simp only [not_lt]; linarith),
      leftPowerLaw_eq_rightPowerLaw_neg]
  · rw [hc,
      if_neg (show ¬(-aL < -1 * aL) from by simp only [not_lt]; linarith),
      if_pos (show -aL < 0 from by linarith), neg_neg,
      if_neg (show ¬(aL < -1 * aL) from by simp only [not_lt]; linarith),
      if_neg (show ¬(aL < 0) from by simp only [not_lt]; linarith),
      if_neg (lt_irrefl aL),
      rightPowerLaw_boundary aL nb1 nb2 fb ha hn1]
    ring_nf
  · rcases lt_trichotomy w 0 with hc2 | hc2 | hc2
    · rw [if_neg (show ¬(w < -1 * aL) from by simp only [not_lt]; linarith),
        if_pos hc2,
        if_neg (show ¬(-w < -1 * aL) from by simp only [not_lt]; linarith),
        if_neg (show ¬(-w < 0) from by simp only [not_lt]; linarith),
        if_pos (show -w < aL from by linarith)]
      ring_nf
    · rw [hc2, neg_zero]
    · rcases lt_trichotomy w aL with hc3 | hc3 | hc3
      · rw [if_neg (show ¬(w < -1 * aL) from by simp only [not_lt]; linarith),
          if_neg (show ¬(w < 0) from by simp only [not_lt]; linarith),
          if_pos hc3,
          if_neg (show ¬(-w < -1 * aL) from by simp only [not_lt]; linarith),
          if_pos (show -w < 0 from by linarith)]
        ring_nf
      · rw [hc3,
          if_neg (show ¬(aL < -1 * aL) from by simp only [not_lt]; linarith),
          if_neg (show ¬(aL < 0) from by simp only [not_lt]; linarith),
          if_neg (lt_irrefl aL),
          if_neg (show ¬(-aL < -1 * aL) from by simp only [not_lt]; linarith),
          if_pos (show -aL < 0 from by linarith),
          rightPowerLaw_boundary aL nb1 nb2 fb ha hn1]
        ring_nf
      · rw [if_neg (show ¬(w < -1 * aL) from by simp only [not_lt]; linarith),
          if_neg (show ¬(w < 0) from by simp only [not_lt]; linarith),
          if_neg (show ¬(w < aL) from by simp only [not_lt]; linarith),
          if_pos (show -w < -1 * aL from by linarith),
          show RooModDSCB.leftPowerLaw aL nb1 nb2 fb (-w)
              = RooModDSCB.rightPowerLaw aL nb1 nb2 fb w from by
            rw [leftPowerLaw_eq_rightPowerLaw_neg, neg_neg]]

/-- Witness for C10 at `x0 = 0`, `sigma = 1`, `alpha = 1`, `n1 = 2`, `n2 = 2`,
`f = 1`, `d = 1` (the boundary case where the two points fall in different
regions). -/
theorem dscb_mirror_symmetry_witness :
    RooModDSCB.evaluate ⟨0, 1, 1, 1, 2, 2, 1, 1, 2, 2, 1⟩ (0 + 1)
      = RooModDSCB.evaluate ⟨0, 1, 1, 1, 2, 2, 1, 1, 2, 2, 1⟩ (0 - 1) :=
  dscb_mirror_symmetry ⟨0, 1, 1, 1, 2, 2, 1, 1, 2, 2, 1⟩ 1 rfl rfl (by norm_num)
    rfl (by norm_num) rfl rfl

namespace SpecBern

/-- Spec §4.4 left-tail term coefficients: the explicit coefficients occupy
indices `0..m−1`, index `m` is implicit with the bare leading factor coef0. -/
noncomputable def termCoefLeft (coef0 : ℝ) (coefs : List ℝ) (i : ℕ) : ℝ :=
  if i = coefs.length then coef0 else coef0 * coefs.getD i 0

/-- Spec §4.4 right-tail term coefficients: the explicit coefficients occupy
indices `1..m`, index `0` is implicit with the bare leading factor coef0. -/
noncomputable def termCoefRight (coef0 : ℝ) (coefs : List ℝ) (i : ℕ) : ℝ :=
  if i = 0 then coef0 else coef0 * coefs.getD (i - 1) 0

end SpecBern

/-- Claim C5: on each tail of the Bernstein shape the evaluator returns the
sum over `i = 0..m` of `termCoef(i)·u^i·(1−u)^(m−i)` with leading factor
`coef0 = exp(−0.5·alpha²)`, where on the left tail `termCoef(i) =
coef0·coefs[i]` for `i < m` and `termCoef(m) = coef0`, and on the right tail
`termCoef(0) = coef0` and `termCoef(i) = coef0·coefs[i−1]` for `i ≥ 1`. -/
theorem gaussbern_tail_term_structure (p : RooGaussBern.Params) (low high x : ℝ) :
    ((x - p.x0) / p.sigma < -1 * p.alphaL →
      RooGaussBern.evaluate p low high x =
        ∑ i ∈ Finset.range (p.bernCoefsL.length + 1),
          SpecBern.termCoefLeft (Real.exp (-0.5 * p.alphaL ^ 2)) p.bernCoefsL i
            * ((x - low) / (p.x0 - p.alphaL * p.sigma - low)) ^ (i : ℝ)
            * (1 - (x - low) / (p.x0 - p.alphaL * p.sigma - low))
                ^ ((p.bernCoefsL.length - i : ℕ) : ℝ)) ∧
    (¬((x - p.x0) / p.sigma < -1 * p.alphaL) → ¬((x - p.x0) / p.sigma < p.alphaR) →
      RooGaussBern.evaluate p low high x =
        ∑ i ∈ Finset.range (p.bernCoefsR.length + 1),
          SpecBern.termCoefRight (Real.exp (-0.5 * p.alphaR ^ 2)) p.bernCoefsR i
            * ((x - (p.x0 + p.alphaR * p.sigma)) / (high - (p.x0 + p.alphaR * p.sigma))) ^ (i : ℝ)
            * (1 - (x - (p.x0 + p.alphaR * p.sigma)) / (high - (p.x0 + p.alphaR * p.sigma)))
                ^ ((p.bernCoefsR.length - i : ℕ) : ℝ)) := by
  have hcL : Real.exp (-0.5 * p.alphaL * p.alphaL) = Real.exp (-0.5 * p.alphaL ^ 2) := by
    ring_nf
  have hcR : Real.exp (-0.5 * p.alphaR * p.alphaR) = Real.exp (-0.5 * p.alphaR ^ 2) := by
    ring_nf
  constructor
  · intro h
    simp only [RooGaussBern.evaluate, RooGaussBern.leftPolyVal]
    rw [if_pos h]
    refine Finset.sum_congr rfl ?_
    intro i hi
    have him : i ≤ p.bernCoefsL.length := Nat.lt_succ_iff.mp (Finset.mem_range.mp hi)
    rcases lt_or_eq_of_le him with hlt | heq
    · rw [if_pos hlt, SpecBern.termCoefLeft, if_neg (Nat.ne_of_lt hlt), hcL]
    · rw [if_neg (by rw [heq]; exact lt_irrefl _), SpecBern.termCoefLeft, if_pos heq, hcL]
  · intro h1 h2
    simp only [RooGaussBern.evaluate, RooGaussBern.rightPolyVal]
    rw [if_neg h1, if_neg h2]
    refine Finset.sum_congr rfl ?_
    intro i _
    rcases Nat.eq_zero_or_pos i with h0 | h0
    · rw [h0, if_neg (lt_irrefl 0), SpecBern.termCoefRight, if_pos rfl, hcR]
    · rw [if_pos h0, SpecBern.termCoefRight, if_neg (Nat.pos_iff_ne_zero.mp h0), hcR]

/-- Witness for C5 at `x0 = 0`, `sigma = 1`, `alphaL = alphaR = 1`,
`coefs = [2]` on both sides, domain `[−5, 5]`: the left clause at `x = −2` and
the right clause at `x = 2`. -/
theorem gaussbern_tail_term_structure_witness :
    RooGaussBern.evaluate ⟨0, 1, 1, 1, [2], [2]⟩ (-5) 5 (-2) =
      ∑ i ∈ Finset.range (([(2:ℝ)].length) + 1),
        SpecBern.termCoefLeft (Real.exp (-0.5 * (1:ℝ) ^ 2)) [(2:ℝ)] i
          * (((-2:ℝ) - (-5)) / ((0:ℝ) - 1 * 1 - (-5))) ^ (i : ℝ)
          * (1 - ((-2:ℝ) - (-5)) / ((0:ℝ) - 1 * 1 - (-5))) ^ (([(2:ℝ)].length - i : ℕ) : ℝ) ∧
    RooGaussBern.evaluate ⟨0, 1, 1, 1, [2], [2]⟩ (-5) 5 2 =
      ∑ i ∈ Finset.range (([(2:ℝ)].length) + 1),
        SpecBern.termCoefRight (Real.exp (-0.5 * (1:ℝ) ^ 2)) [(2:ℝ)] i
          * (((2:ℝ) - ((0:ℝ) + 1 * 1)) / (5 - ((0:ℝ) + 1 * 1))) ^ (i : ℝ)
          * (1 - ((2:ℝ) - ((0:ℝ) + 1 * 1)) / (5 - ((0:ℝ) + 1 * 1))) ^ (([(2:ℝ)].length - i : ℕ) : ℝ) :=
  ⟨(gaussbern_tail_term_structure ⟨0, 1, 1, 1, [2], [2]⟩ (-5) 5 (-2)).1 (by norm_num),
   (gaussbern_tail_term_structure ⟨0, 1, 1, 1, [2], [2]⟩ (-5) 5 2).2
     (by norm_num) (by norm_num)⟩

/-- At `u = 1` the left-tail Bernstein sum collapses to its final (implicit)
term, the bare leading factor. -/
lemma bern_sum_left_at_one (coefs : List ℝ) (c0 : ℝ) :
    ∑ i ∈ Finset.range (coefs.length + 1),
      (if i < coefs.length then c0 * coefs.getD i 0 else c0)
        * (1 : ℝ) ^ (i : ℝ) * (1 - (1 : ℝ)) ^ ((coefs.length - i : ℕ) : ℝ) = c0 := by
  rw [Finset.sum_range_succ, Finset.sum_eq_zero]
  · rw [if_neg (lt_irrefl coefs.length), Nat.sub_self, Nat.cast_zero, Real.rpow_zero,
      Real.one_rpow]
    ring
  · intro i hi
    have him : i < coefs.length := Finset.mem_range.mp hi
    have hne : ((coefs.length - i : ℕ) : ℝ) ≠ 0 := by
      have : 0 < coefs.length - i := Nat.sub_pos_of_lt him
      exact_mod_cast Nat.pos_iff_ne_zero.mp this
    rw [show (1 : ℝ) - 1 = 0 from by norm_num, Real.zero_rpow hne]
    ring

/-- At `u = 0` the right-tail Bernstein sum collapses to its first (implicit)
term, the bare leading factor. -/
lemma bern_sum_right_at_zero (coefs : List ℝ) (c0 : ℝ) :
    ∑ i ∈ Finset.range (coefs.length + 1),
      (if i > 0 then c0 * coefs.getD (i - 1) 0 else c0)
        * (0 : ℝ) ^ (i : ℝ) * (1 - (0 : ℝ)) ^ ((coefs.length - i : ℕ) : ℝ) = c0 := by
  rw [Finset.sum_eq_single 0]
  · rw [if_neg (lt_irrefl 0), Nat.cast_zero, Real.rpow_zero,
      show (1 : ℝ) - 0 = 1 from by norm_num, Real.one_rpow]
    ring
  · intro i _ hne
    have : ((i : ℕ) : ℝ) ≠ 0 := by exact_mod_cast hne
    rw [Real.zero_rpow this]
    ring
  · intro h0
    exact absurd (Finset.mem_range.mpr (Nat.succ_pos _)) h0

/-- The left polynomial branch evaluated exactly at the left junction
`x = x0 − alphaL·sigma` (where `u = 1`) returns `exp(−0.5·alphaL²)`. -/
lemma leftPolyVal_at_junction (x0 sigma alphaL : ℝ) (coefs : List ℝ) (low : ℝ)
    (hlow : low < x0 - alphaL * sigma) :
    RooGaussBern.leftPolyVal x0 sigma alphaL coefs low (x0 - alphaL * sigma)
      = Real.exp (-0.5 * alphaL ^ 2) := by
  have hne : x0 - alphaL * sigma - low ≠ 0 :=
    ne_of_gt (by linarith : (0:ℝ) < x0 - alphaL * sigma - low)
  simp only [RooGaussBern.leftPolyVal]
  rw [div_self hne, bern_sum_left_at_one]
  ring_nf

/-- The right polynomial branch evaluated exactly at the right junction
`x = x0 + alphaR·sigma` (where `u = 0`) returns `exp(−0.5·alphaR²)`. -/
lemma rightPolyVal_at_junction (x0 sigma alphaR : ℝ) (coefs : List ℝ) (high : ℝ) :
    RooGaussBern.rightPolyVal x0 sigma alphaR coefs high (x0 + alphaR * sigma)
      = Real.exp (-0.5 * alphaR ^ 2) := by
  simp only [RooGaussBern.rightPolyVal]
  rw [sub_self, zero_div, bern_sum_right_at_zero]
  ring_nf

/-- Claim C6: for the Bernstein-tail shape with positive width and boundary
parameters and domain edges strictly containing both junctions, the tail-branch
and core-branch closed forms agree at the junction `x = x0 − alphaL·sigma`,
both equal to `exp(−0.5·alphaL²)`, and symmetrically at `x = x0 + alphaR·sigma`
both equal `exp(−0.5·alphaR²)`; consequently the evaluated density takes
exactly these junction values there. -/
theorem gaussbern_junction_continuity (p : RooGaussBern.Params) (low high : ℝ)
    (hs : 0 < p.sigma) (haL : 0 < p.alphaL) (haR : 0 < p.alphaR)
    (hlow : low < p.x0 - p.alphaL * p.sigma) (_hhigh : p.x0 + p.alphaR * p.sigma < high) :
    RooGaussBern.leftPolyVal p.x0 p.sigma p.alphaL p.bernCoefsL low (p.x0 - p.alphaL * p.sigma)
      = Real.exp (-0.5 * p.alphaL ^ 2) ∧
    RooGaussBern.coreVal p.x0 p.sigma (p.x0 - p.alphaL * p.sigma)
      = Real.exp (-0.5 * p.alphaL ^ 2) ∧
    RooGaussBern.rightPolyVal p.x0 p.sigma p.alphaR p.bernCoefsR high (p.x0 + p.alphaR * p.sigma)
      = Real.exp (-0.5 * p.alphaR ^ 2) ∧
    RooGaussBern.coreVal p.x0 p.sigma (p.x0 + p.alphaR * p.sigma)
      = Real.exp (-0.5 * p.alphaR ^ 2) ∧
    RooGaussBern.evaluate p low high (p.x0 - p.alphaL * p.sigma)
      = Real.exp (-0.5 * p.alphaL ^ 2) ∧
    RooGaussBern.evaluate p low high (p.x0 + p.alphaR * p.sigma)
      = Real.exp (-0.5 * p.alphaR ^ 2) := by
  have hcoreL : RooGaussBern.coreVal p.x0 p.sigma (p.x0 - p.alphaL * p.sigma)
      = Real.exp (-0.5 * p.alphaL ^ 2) := by
    simp only [RooGaussBern.coreVal,
      show p.x0 - p.alphaL * p.sigma - p.x0 = -p.alphaL * p.sigma from by ring,
      mul_div_cancel_right₀ (-p.alphaL) (ne_of_gt hs)]
    ring_nf
  have hcoreR : RooGaussBern.coreVal p.x0 p.sigma (p.x0 + p.alphaR * p.sigma)
      = Real.exp (-0.5 * p.alphaR ^ 2) := by
    simp only [RooGaussBern.coreVal,
      show p.x0 + p.alphaR * p.sigma - p.x0 = p.alphaR * p.sigma from by ring,
      mul_div_cancel_right₀ p.alphaR (ne_of_gt hs)]
    ring_nf
  refine ⟨leftPolyVal_at_junction _ _ _ _ _ hlow, hcoreL,
    rightPolyVal_at_junction _ _ _ _ _, hcoreR, ?_, ?_⟩
  · simp only [RooGaussBern.evaluate,
      show p.x0 - p.alphaL * p.sigma - p.x0 = -p.alphaL * p.sigma from by ring,
      mul_div_cancel_right₀ (-p.alphaL) (ne_of_gt hs)]
    rw [if_neg (by simp only [not_lt]; linarith), if_pos (by linarith)]
    exact hcoreL
  · simp only [RooGaussBern.evaluate,
      show p.x0 + p.alphaR * p.sigma - p.x0 = p.alphaR * p.sigma from by ring,
      mul_div_cancel_right₀ p.alphaR (ne_of_gt hs)]
    rw [if_neg (by simp only [not_lt]; linarith), if_neg (lt_irrefl p.alphaR)]
    exact rightPolyVal_at_junction _ _ _ _ _

/-- Witness for C6 at the spec's scenario-B parameters
(`x0 = 0`, `sigma = 1`, `alphaL = alphaR = 1.5`, domain `[−5, 5]`,
coefficient lists `[2]` on each side). -/
theorem gaussbern_junction_continuity_witness :
    RooGaussBern.leftPolyVal 0 1 1.5 [2] (-5) ((0:ℝ) - 1.5 * 1)
      = Real.exp (-0.5 * (1.5:ℝ) ^ 2) ∧
    RooGaussBern.coreVal 0 1 ((0:ℝ) - 1.5 * 1) = Real.exp (-0.5 * (1.5:ℝ) ^ 2) ∧
    RooGaussBern.rightPolyVal 0 1 1.5 [2] 5 ((0:ℝ) + 1.5 * 1)
      = Real.exp (-0.5 * (1.5:ℝ) ^ 2) ∧
    RooGaussBern.coreVal 0 1 ((0:ℝ) + 1.5 * 1) = Real.exp (-0.5 * (1.5:ℝ) ^ 2) ∧
    RooGaussBern.evaluate ⟨0, 1, 1.5, 1.5, [2], [2]⟩ (-5) 5 ((0:ℝ) - 1.5 * 1)
      = Real.exp (-0.5 * (1.5:ℝ) ^ 2) ∧
    RooGaussBern.evaluate ⟨0, 1, 1.5, 1.5, [2], [2]⟩ (-5) 5 ((0:ℝ) + 1.5 * 1)
      = Real.exp (-0.5 * (1.5:ℝ) ^ 2) :=
  gaussbern_junction_continuity ⟨0, 1, 1.5, 1.5, [2], [2]⟩ (-5) 5
    (by norm_num) (by norm_num) (by norm_num) (by norm_num) (by norm_num)

/-- Claim C8: if the coefficient list of a tail side is empty, every input
classified into that tail evaluates to exactly the constant
`coef0 = exp(−0.5·alpha²)` of that side, for every x and every pair of domain
edges. -/
theorem gaussbern_empty_coefs_constant (p : RooGaussBern.Params) (low high x : ℝ) :
    (p.bernCoefsL = [] → (x - p.x0) / p.sigma < -1 * p.alphaL →
      RooGaussBern.evaluate p low high x = Real.exp (-0.5 * p.alphaL ^ 2)) ∧
    (p.bernCoefsR = [] → ¬((x - p.x0) / p.sigma < -1 * p.alphaL) →
      ¬((x - p.x0) / p.sigma < p.alphaR) →
      RooGaussBern.evaluate p low high x = Real.exp (-0.5 * p.alphaR ^ 2)) := by
  constructor
  · intro hnil h
    simp only [RooGaussBern.evaluate, RooGaussBern.leftPolyVal, hnil]
    rw [if_pos h]
    simp
    ring_nf
  · intro hnil h1 h2
    simp only [RooGaussBern.evaluate, RooGaussBern.rightPolyVal, hnil]
    rw [if_neg h1, if_neg h2]
    simp
    ring_nf

/-- Witness for C8 with empty lists on both sides, `x0 = 0`, `sigma = 1`,
`alphaL = alphaR = 1`: the left clause at `x = −3`, the right clause at
`x = 3`. -/
theorem gaussbern_empty_coefs_constant_witness :
    RooGaussBern.evaluate ⟨0, 1, 1, 1, [], []⟩ (-7) 9 (-3) = Real.exp (-0.5 * (1:ℝ) ^ 2) ∧
    RooGaussBern.evaluate ⟨0, 1, 1, 1, [], []⟩ (-7) 9 3 = Real.exp (-0.5 * (1:ℝ) ^ 2) :=
  ⟨(gaussbern_empty_coefs_constant ⟨0, 1, 1, 1, [], []⟩ (-7) 9 (-3)).1 rfl (by norm_num),
   (gaussbern_empty_coefs_constant ⟨0, 1, 1, 1, [], []⟩ (-7) 9 3).2 rfl
     (by norm_num) (by norm_num)⟩

/-- Entries of a real list bounded below by 0 give a non-negative
default-0 lookup at every index. -/
lemma getD_zero_nonneg (l : List ℝ) (h : ∀ c ∈ l, 0 ≤ c) (i : ℕ) : 0 ≤ l.getD i 0 := by
  by_cases hi : i < l.length
  · rw [List.getD_eq_getElem l 0 hi]
    exact h _ (List.getElem_mem hi)
  · rw [List.getD_eq_default l 0 (le_of_not_lt hi)]

/-- The left polynomial branch is non-negative whenever all supplied
coefficients are non-negative and the rescaled coordinate lies in [0,1]. -/
lemma leftPolyVal_nonneg (x0 sigma alphaL : ℝ) (coefs : List ℝ) (low x : ℝ)
    (hc : ∀ c ∈ coefs, 0 ≤ c)
    (hu0 : 0 ≤ (x - low) / (x0 - alphaL * sigma - low))
    (hu1 : (x - low) / (x0 - alphaL * sigma - low) ≤ 1) :
    0 ≤ RooGaussBern.leftPolyVal x0 sigma alphaL coefs low x := by
  simp only [RooGaussBern.leftPolyVal]
  apply Finset.sum_nonneg
  intro i _
  refine mul_nonneg (mul_nonneg ?_ (Real.rpow_nonneg hu0 _))
    (Real.rpow_nonneg (by linarith) _)
  by_cases hi : i < coefs.length
  · rw [if_pos hi]
    exact mul_nonneg (Real.exp_pos _).le (getD_zero_nonneg coefs hc i)
  · rw [if_neg hi]
    exact (Real.exp_pos _).le

/-- The right polynomial branch is non-negative whenever all supplied
coefficients are non-negative and the rescaled coordinate lies in [0,1]. -/
lemma rightPolyVal_nonneg (x0 sigma alphaR : ℝ) (coefs : List ℝ) (high x : ℝ)
    (hc : ∀ c ∈ coefs, 0 ≤ c)
    (hu0 : 0 ≤ (x - (x0 + alphaR * sigma)) / (high - (x0 + alphaR * sigma)))
    (hu1 : (x - (x0 + alphaR * sigma)) / (high - (x0 + alphaR * sigma)) ≤ 1) :
    0 ≤ RooGaussBern.rightPolyVal x0 sigma alphaR coefs high x := by
  simp only [RooGaussBern.rightPolyVal]
  apply Finset.sum_nonneg
  intro i _
  refine mul_nonneg (mul_nonneg ?_ (Real.rpow_nonneg hu0 _))
    (Real.rpow_nonneg (by linarith) _)
  by_cases hi : 0 < i
  · rw [if_pos hi]
    exact mul_nonneg (Real.exp_pos _).le (getD_zero_nonneg coefs hc (i - 1))
  · rw [if_neg hi]
    exact (Real.exp_pos _).le

/-- Claim C9: with all supplied coefficients non-negative, each Bernstein tail
branch is non-negative at every rescaled coordinate `u ∈ [0,1]`, and
consequently (with positive width and domain edges strictly containing both
junctions) the whole evaluator output is non-negative on the declared
domain. -/
theorem gaussbern_nonneg :
    (∀ (x0 sigma alphaL : ℝ) (coefs : List ℝ) (low x : ℝ),
      (∀ c ∈ coefs, 0 ≤ c) →
      0 ≤ (x - low) / (x0 - alphaL * sigma - low) →
      (x - low) / (x0 - alphaL * sigma - low) ≤ 1 →
      0 ≤ RooGaussBern.leftPolyVal x0 sigma alphaL coefs low x) ∧
    (∀ (x0 sigma alphaR : ℝ) (coefs : List ℝ) (high x : ℝ),
      (∀ c ∈ coefs, 0 ≤ c) →
      0 ≤ (x - (x0 + alphaR * sigma)) / (high - (x0 + alphaR * sigma)) →
      (x - (x0 + alphaR * sigma)) / (high - (x0 + alphaR * sigma)) ≤ 1 →
      0 ≤ RooGaussBern.rightPolyVal x0 sigma alphaR coefs high x) ∧
    (∀ (p : RooGaussBern.Params) (low high x : ℝ),
      (∀ c ∈ p.bernCoefsL, 0 ≤ c) → (∀ c ∈ p.bernCoefsR, 0 ≤ c) →
      0 < p.sigma → low ≤ x → x ≤ high →
      low < p.x0 - p.alphaL * p.sigma → p.x0 + p.alphaR * p.sigma < high →
      0 ≤ RooGaussBern.evaluate p low high x) := by
  refine ⟨leftPolyVal_nonneg, rightPolyVal_nonneg, ?_⟩
  intro p low high x hcl hcr hs hxl hxh hbl hbh
  simp only [RooGaussBern.evaluate]
  split_ifs with h1 h2
  · have hxb : x < p.x0 - p.alphaL * p.sigma := by
      have h1x : x - p.x0 < -1 * p.alphaL * p.sigma := by
        have := (div_lt_iff₀ hs).mp h1
        linarith
      linarith
    have hden : 0 < p.x0 - p.alphaL * p.sigma - low := by linarith
    exact leftPolyVal_nonneg p.x0 p.sigma p.alphaL p.bernCoefsL low x hcl
      (div_nonneg (by linarith) hden.le)
      ((div_le_one hden).mpr (by linarith))
  · exact (Real.exp_pos _).le
  · have hxb : p.x0 + p.alphaR * p.sigma ≤ x := by
      have h2x : p.alphaR * p.sigma ≤ x - p.x0 := by
        have := (le_div_iff₀ hs).mp (not_lt.mp h2)
        linarith
      linarith
    have hden : 0 < high - (p.x0 + p.alphaR * p.sigma) := by linarith
    exact rightPolyVal_nonneg p.x0 p.sigma p.alphaR p.bernCoefsR high x hcr
      (div_nonneg (by linarith) hden.le)
      ((div_le_one hden).mpr (by linarith))

/-- Witness for C9: all three clauses at concrete inputs with coefficient
list `[2]`, `x0 = 0`, `sigma = 1`, `alphaL = alphaR = 1`, domain `[−5, 5]`. -/
theorem gaussbern_nonneg_witness :
    0 ≤ RooGaussBern.leftPolyVal 0 1 1 [2] (-5) (-2) ∧
    0 ≤ RooGaussBern.rightPolyVal 0 1 1 [2] 5 2 ∧
    0 ≤ RooGaussBern.evaluate ⟨0, 1, 1, 1, [2], [2]⟩ (-5) 5 0 :=
  ⟨gaussbern_nonneg.1 0 1 1 [2] (-5) (-2) (by norm_num) (by norm_num) (by norm_num),
   gaussbern_nonneg.2.1 0 1 1 [2] 5 2 (by norm_num) (by norm_num) (by norm_num),
   gaussbern_nonneg.2.2 ⟨0, 1, 1, 1, [2], [2]⟩ (-5) 5 0 (by norm_num) (by norm_num)
     (by norm_num) (by norm_num) (by norm_num) (by norm_num) (by norm_num)⟩

/-- Witness for the amended C2 at concrete parameters
(`x0 = 0`, unit widths, `alphaL = alphaR = 1`, empty coefficient lists). -/
theorem boundary_region_amended_witness :
    RooModDSCB.classify ⟨0, 1, 1, 1, 2, 2, 1, 1, 2, 2, 1⟩ (0 + 1 * 1) = RooModDSCB.Region.rightTail ∧
    RooModDSCB.classify ⟨0, 1, 1, 1, 2, 2, 1, 1, 2, 2, 1⟩ (0 - 1 * 1) = RooModDSCB.Region.coreLeft ∧
    RooGaussBern.classify ⟨0, 1, 1, 1, [], []⟩ (0 + 1 * 1) = RooGaussBern.Region.rightTail ∧
    RooGaussBern.classify ⟨0, 1, 1, 1, [], []⟩ (0 - 1 * 1) = RooGaussBern.Region.core :=
  boundary_region_amended ⟨0, 1, 1, 1, 2, 2, 1, 1, 2, 2, 1⟩ ⟨0, 1, 1, 1, [], []⟩
    (by norm_num) (by norm_num) (by norm_num) (by norm_num)
    (by norm_num) (by norm_num) (by norm_num)
